import Mathlib

/-!
Shallow embedding of the WorkingTimeMeasurementSystem core (src/db.go,
src/main.go, src/timetrack_init.sql).

Time is modelled as integer seconds of local wall-clock time.  The stored
entry dates are local wall-clock instants (the Go code inserts time.Now()
values and the comments in getEntriesWithDetails state that SQLite's
datetime('now') is UTC while stored times are local).  The UTC instant
corresponding to a local instant t is t - tzOffset, where tzOffset is the
local-minus-UTC offset in seconds.  Calendar days are day numbers obtained
by floor division by 86400, which models the per-location (y, m, d)
comparison of the Go code for a fixed location.
-/

namespace WTMS

/-- Calendar day number of a local wall-clock timestamp: floor division by
the 86400 seconds of a day (Int division in Lean is Euclidean and the
divisor is positive, so this is the floor). -/
def dayOf (t : Int) : Int := t / 86400

/-- Local wall-clock second of 23:59:59 on calendar day d; this is the
instant time.Date(ly, lm, ld, 23, 59, 59, 0, loc) used by
ensureMidnightAutoCheckoutWithDB in src/db.go. -/
def midnightEnd (d : Int) : Int := d * 86400 + 86399

/-- SQLite's datetime('now') as seen when the application's local wall clock
reads asOf: the UTC wall-clock, i.e. asOf minus the local-minus-UTC offset. -/
def sqliteNow (asOf tz : Int) : Int := asOf - tz

/-- Row of the type table of timetrack_init.sql: (id, status, work, code).
The code column is the barcode code used by bulkClockHandler. -/
structure ActivityType where
  id : Nat
  status : String
  work : Int
  code : String
  deriving DecidableEq

/-- Row of the users table: id, stampkey and the auto_checkout_midnight
flag (the columns the embedded operations consult). -/
structure User where
  id : Nat
  stampkey : String
  autoCheckoutMidnight : Bool
  deriving DecidableEq

/-- Row of the departments table. -/
structure Department where
  id : Nat
  name : String
  deriving DecidableEq

/-- Row of the entries table: (id, user_id, type_id, date).  The list order
of entries in a Store is the table scan (insertion/rowid) order and ids are
assigned increasingly by appendEntry. -/
structure Entry where
  id : Nat
  userId : Nat
  typeId : Nat
  date : Int
  deriving DecidableEq

/-- The tenant database state: the four tables the embedded operations
touch. -/
structure Store where
  users : List User
  types : List ActivityType
  departments : List Department
  entries : List Entry
  deriving DecidableEq

/-- Lookup of a user row by id. -/
def findUser (s : Store) (uid : Nat) : Option User :=
  s.users.find? (fun u => u.id = uid)

/-- Lookup of a type row by id. -/
def findType (s : Store) (tid : Nat) : Option ActivityType :=
  s.types.find? (fun t => t.id = tid)

/-- Lookup of a type row by its barcode code (bulkClockHandler). -/
def findTypeByCode (s : Store) (code : String) : Option ActivityType :=
  s.types.find? (fun t => t.code = code)

/-- Lookup of a user row by stampkey (bulkClockHandler). -/
def findUserByStampkey (s : Store) (key : String) : Option User :=
  s.users.find? (fun u => u.stampkey = key)

/-- Entries of one user in table order (WHERE user_id = uid). -/
def userEntries (s : Store) (uid : Nat) : List Entry :=
  s.entries.filter (fun e => e.userId = uid)

/-- Step of the ORDER BY date DESC LIMIT 1 scan: the kept row is replaced
only by a strictly later one, so among equal dates the first row in scan
order wins (SQLite keeps the first best row of the scan). -/
def laterEntry (acc : Option Entry) (e : Entry) : Option Entry :=
  match acc with
  | none => some e
  | some a => if a.date < e.date then some e else some a

/-- Most recent entry of a user: SELECT date, ... FROM entries WHERE
user_id=? ORDER BY date DESC LIMIT 1 in ensureMidnightAutoCheckoutWithDB. -/
def lastEntryOf (s : Store) (uid : Nat) : Option Entry :=
  (userEntries s uid).foldl laterEntry none

/-- Sort rank of the non-work type query: CASE WHEN status='Break' THEN 0
ELSE 1 END. -/
def breakRank (t : ActivityType) : Nat :=
  if t.status = "Break" then 0 else 1

/-- Step keeping the better candidate of the non-work type query. -/
def betterNonWork (acc : Option ActivityType) (t : ActivityType) :
    Option ActivityType :=
  match acc with
  | none => some t
  | some a =>
    if breakRank t < breakRank a ∨ (breakRank t = breakRank a ∧ t.id < a.id)
    then some t else some a

/-- SELECT id FROM type WHERE work=0 ORDER BY CASE WHEN status='Break' THEN
0 ELSE 1 END, id LIMIT 1 in ensureMidnightAutoCheckoutWithDB. -/
def nonWorkType (s : Store) : Option ActivityType :=
  (s.types.filter (fun t => t.work = 0)).foldl betterNonWork none

/-- Next surrogate id for an inserted entry row. -/
def nextId (s : Store) : Nat :=
  (s.entries.foldl (fun m e => max m e.id) 0) + 1

/-- INSERT INTO entries(user_id, type_id, date) VALUES (...). -/
def appendEntry (s : Store) (uid tid : Nat) (d : Int) : Store :=
  { s with entries := s.entries ++ [⟨nextId s, uid, tid, d⟩] }

/-- ensureMidnightAutoCheckoutWithDB of src/db.go: before a new punch at
local time now, if the user's auto_checkout_midnight flag is set, the most
recent entry exists, its type row exists and counts as work, and its
calendar day differs from now's, insert one non-work entry (Break
preferred, else lowest id) at 23:59:59 of the last entry's day; any failed
lookup returns with no change. -/
def ensureMidnightAutoCheckoutWithDB (s : Store) (userID : Nat) (now : Int) :
    Store :=
  if userID = 0 then s else
  match findUser s userID with
  | none => s
  | some u =>
    if !u.autoCheckoutMidnight then s else
    match lastEntryOf s userID with
    | none => s
    | some last =>
      match findType s last.typeId with
      | none => s
      | some t =>
        if t.work ≠ 1 then s else
        if dayOf last.date = dayOf now then s else
        match nonWorkType s with
        | none => s
        | some nw => appendEntry s userID nw.id (midnightEnd (dayOf last.date))

/-- createEntry of src/db.go with an explicit flag telling whether the
final INSERT succeeds; on failure the error is only logged, so the store
keeps whatever ensureMidnightAutoCheckoutWithDB already wrote. -/
def createEntryWith (s : Store) (userID activityID : Nat) (entrydate : Int)
    (insertOk : Bool) : Store :=
  let s1 := ensureMidnightAutoCheckoutWithDB s userID entrydate
  if insertOk then appendEntry s1 userID activityID entrydate else s1

/-- createEntry of src/db.go in the successful-insert case. -/
def createEntry (s : Store) (userID activityID : Nat) (entrydate : Int) :
    Store :=
  createEntryWith s userID activityID entrydate true

/-! Read paths: interval reconstruction, detail listings, aggregation. -/

/-- Step keeping the minimum of a fold over candidate dates. -/
def keepMin (acc : Option Int) (x : Int) : Option Int :=
  match acc with
  | none => some x
  | some m => if x < m then some x else some m

/-- Minimum element of ds strictly greater than d, if any: the shape of
SELECT MIN(next_e.date) FROM entries next_e WHERE next_e.user_id =
e.user_id AND next_e.date > e.date used by every read path. -/
def minGreater (ds : List Int) (d : Int) : Option Int :=
  (ds.filter (fun x => d < x)).foldl keepMin none

/-- Date of the next strictly later entry of the same user, if any. -/
def nextDateAfter (s : Store) (uid : Nat) (d : Int) : Option Int :=
  minGreater ((userEntries s uid).map (fun e => e.date)) d

/-- Insert into a list sorted by date ascending, after any equal dates
(stable ORDER BY date ASC). -/
def insertAsc (e : Entry) : List Entry → List Entry
  | [] => [e]
  | x :: xs => if e.date < x.date then e :: x :: xs else x :: insertAsc e xs

/-- Stable sort by date ascending (ORDER BY DATETIME(e.date) ASC). -/
def sortByDateAsc (l : List Entry) : List Entry :=
  l.foldl (fun acc e => insertAsc e acc) []

/-- Insert into a list sorted by date descending, after any equal dates
(stable ORDER BY date DESC). -/
def insertDesc (e : Entry) : List Entry → List Entry
  | [] => [e]
  | x :: xs => if x.date < e.date then e :: x :: xs else x :: insertDesc e xs

/-- Stable sort by date descending (ORDER BY e.date DESC). -/
def sortByDateDesc (l : List Entry) : List Entry :=
  l.foldl (fun acc e => insertDesc e acc) []

/-- Derived interval of the work_hours / work_hours_with_type views: start
is an entry's date, end the next strictly later date of the same user or
the as-of instant, work the type's work flag. -/
structure Interval where
  userId : Nat
  typeId : Nat
  work : Int
  startSec : Int
  endSec : Int
  deriving DecidableEq

/-- Interval derived from one entry: the join of the entry with its type
row (none when the type row is missing, as the view's JOIN drops the row),
with end time IFNULL(next strictly later date of the same user, asOf). -/
def intervalOf (s : Store) (uid : Nat) (asOf : Int) (e : Entry) :
    Option Interval :=
  (findType s e.typeId).map (fun t =>
    { userId := uid, typeId := e.typeId, work := t.work,
      startSec := e.date,
      endSec := (nextDateAfter s uid e.date).getD asOf })

/-- Placeholder interval used when rewriting filterMap as map. -/
def dfltInterval : Interval := ⟨0, 0, 0, 0, 0⟩

/-- Interval reconstruction of the work_hours view (timetrack_init.sql):
entries of one user ordered by date ascending, each joined to its type row
(rows whose user or type row is missing are dropped by the JOINs), with end
time IFNULL(next strictly later date, asOf).  In the view itself asOf is
DATETIME('now'); here it is a parameter so the same definition covers any
as-of instant. -/
def reconstruct (s : Store) (uid : Nat) (asOf : Int) : List Interval :=
  match findUser s uid with
  | none => []
  | some _ =>
    (sortByDateAsc (userEntries s uid)).filterMap (intervalOf s uid asOf)

/-- Daily work seconds of the work_hours view for one user and day: sum of
(end - start) * work over intervals whose start lies on that day, with the
view's open-interval end nowSec = DATETIME('now'). -/
def workHoursDaySec (s : Store) (uid : Nat) (d : Int) (nowSec : Int) : Int :=
  ((reconstruct s uid nowSec).filter (fun iv => dayOf iv.startSec = d)).foldl
    (fun acc iv => acc + (iv.endSec - iv.startSec) * iv.work) 0

/-- Row shape of the two entry-detail queries; durations are kept in
seconds (the Go and SQL code report hours, i.e. seconds / 3600). -/
structure EntryDetail where
  id : Nat
  userId : Nat
  activityId : Nat
  startSec : Int
  endSec : Int
  durationSec : Int
  deriving DecidableEq

/-- Modelled from the spec: parseDBTimeInLoc, called by getEntriesWithDetails
in src/db.go but not itself part of src/, parses a stored timestamp in the
application's local time zone ("parse timestamps into a single canonical
local-time representation, then subtract").  Stored dates are already local
wall-clock seconds in this embedding, so parsing is the identity. -/
def parseDBTimeInLoc (t : Int) : Int := t

/-- Duration computed in Go by getEntriesWithDetails: end is the next
strictly later date parsed in local time, or time.Now() (the local as-of
instant) when NULL; negative differences are clamped to zero. -/
def goDuration (startSec : Int) (endOpt : Option Int) (asOf : Int) : Int :=
  let endSec := (endOpt.map parseDBTimeInLoc).getD asOf
  max 0 (endSec - parseDBTimeInLoc startSec)

/-- Entries surviving the inner JOINs of the detail queries: JOIN users u
ON e.user_id = u.id and JOIN type t ON e.type_id = t.id drop any entry
whose user or type row is missing (the departments join is a LEFT JOIN and
drops nothing). -/
def joinedEntries (s : Store) : List Entry :=
  s.entries.filter (fun e =>
    (findUser s e.userId).isSome && (findType s e.typeId).isSome)

/-- getEntriesWithDetails of src/db.go: the entries surviving the inner
JOINs to users and type, ordered by date descending, LIMIT 1000, end time
from the SQL subquery (NULL when open) and duration computed in Go in
local time with the zero clamp. -/
def getEntriesWithDetails (s : Store) (asOf : Int) : List EntryDetail :=
  ((sortByDateDesc (joinedEntries s)).take 1000).map (fun e =>
    let endOpt := nextDateAfter s e.userId e.date
    { id := e.id, userId := e.userId, activityId := e.typeId,
      startSec := e.date,
      endSec := (endOpt.map parseDBTimeInLoc).getD asOf,
      durationSec := goDuration e.date endOpt asOf })

/-- Date-range filter of getUserEntriesDetailed: date(e.date) >= date(from)
AND date(e.date) <= date(to), each clause only when the bound is given. -/
def inRange (fromD toD : Option Int) (e : Entry) : Bool :=
  (match fromD with | none => true | some f => decide (f ≤ dayOf e.date)) &&
  (match toD with | none => true | some t => decide (dayOf e.date ≤ t))

/-- Rows matched by getUserEntriesDetailed before ORDER BY and LIMIT: the
user's entries in the optional day range that also survive the query's
inner JOINs to users and type. -/
def detailRows (s : Store) (uid : Nat) (fromD toD : Option Int) :
    List Entry :=
  ((userEntries s uid).filter (inRange fromD toD)).filter (fun e =>
    (findUser s e.userId).isSome && (findType s e.typeId).isSome)

/-- getUserEntriesDetailed of src/db.go: one user's entries in an optional
day range that survive the inner JOINs to users and type, ordered by date
descending, LIMIT 2000; end time and duration are computed inside SQL,
with datetime('now') (UTC, i.e. sqliteNow) closing open intervals and no
clamping of negative durations. -/
def getUserEntriesDetailed (s : Store) (uid : Nat) (fromD toD : Option Int)
    (asOf tz : Int) : List EntryDetail :=
  ((sortByDateDesc (detailRows s uid fromD toD)).take 2000).map (fun e =>
    let endSec := (nextDateAfter s uid e.date).getD (sqliteNow asOf tz)
    { id := e.id, userId := e.userId, activityId := e.typeId,
      startSec := e.date, endSec := endSec,
      durationSec := endSec - e.date })

/-- Per-day total work seconds of getTimeTrackingTrends in src/db.go: over
entries of that calendar day, CASE WHEN t.work = 1 THEN (JULIANDAY(COALESCE
(next date, datetime('now'))) - JULIANDAY(e.date)) * 24 ELSE 0 END, summed;
the open-interval end is again the backend's UTC now. -/
def trendTotalSec (s : Store) (d : Int) (asOf tz : Int) : Int :=
  (s.entries.filter (fun e => dayOf e.date = d)).foldl (fun acc e =>
    acc + (match findType s e.typeId with
      | some t =>
        if t.work = 1 then
          (nextDateAfter s e.userId e.date).getD (sqliteNow asOf tz) - e.date
        else 0
      | none => 0)) 0

/-! Current status, handlers, and the remaining write operations. -/

/-- Step keeping the maximum of a fold over candidate dates. -/
def keepMax (acc : Option Int) (x : Int) : Option Int :=
  match acc with
  | none => some x
  | some m => if m < x then some x else some m

/-- Maximum entry date of a user: the MAX(date) grouped subquery of the
current_status view. -/
def maxDateOf (s : Store) (uid : Nat) : Option Int :=
  ((userEntries s uid).map (fun e => e.date)).foldl keepMax none

/-- Rows of the current_status view for one user: entries whose date equals
the user's maximum date, joined to the users and type tables (a row is
dropped when either join fails), in entries-table scan order. -/
def currentStatusRows (s : Store) (uid : Nat) : List (String × Int) :=
  match findUser s uid, maxDateOf s uid with
  | some _, some m =>
    (userEntries s uid).filterMap (fun e =>
      if e.date = m then
        (findType s e.typeId).map (fun t => (t.status, e.date))
      else none)
  | _, _ => []

/-- getCurrentStatusForUserID of src/db.go: QueryRow over the
current_status view returns the first row, or ok=false when there is none
(a user with zero events yields no status rather than an error). -/
def getCurrentStatusForUserID (s : Store) (uid : Nat) :
    Option (String × Int) :=
  (currentStatusRows s uid).head?

/-- HTTP outcomes of the embedded handlers. -/
inductive HTTPResponse
  | seeOther
  | noContent
  | badRequest
  deriving DecidableEq

/-- clockInOut of src/main.go: after form validation (userID and activityID
must be non-empty, modelled as non-zero) it calls createEntry, whose insert
errors are only logged, and always redirects back with 303 See Other. -/
def clockInOut (s : Store) (userID activityID : Nat) (now : Int)
    (insertOk : Bool) : HTTPResponse × Store :=
  if userID = 0 ∨ activityID = 0 then (.badRequest, s)
  else (.seeOther, createEntryWith s userID activityID now insertOk)

/-- Loop body of bulkClockHandler: resolve the scanned user code (unknown
cards are skipped) and insert a punch at the shared timestamp now, ignoring
Exec errors (insertOk false means the insert fails). -/
def bulkStep (act : ActivityType) (now : Int) (insertOk : Bool)
    (st : Store) (code : String) : Store :=
  match findUserByStampkey st code with
  | none => st
  | some u => if insertOk then appendEntry st u.id act.id now else st

/-- bulkClockHandler of src/main.go (the handler cited at lines 2352-2388):
resolve the activity by its code or fail with 400; then fold the scanned
user codes through bulkStep; no auto-checkout logic runs, and the response
is 204 No Content regardless of insert success. -/
def bulkClockHandler (s : Store) (activityCode : String)
    (userCodes : List String) (now : Int) (insertOk : Bool) :
    HTTPResponse × Store :=
  match findTypeByCode s activityCode with
  | none => (.badRequest, s)
  | some act =>
    (.noContent, userCodes.foldl (bulkStep act now insertOk) s)

/-- deleteEntry of src/db.go: DELETE FROM entries WHERE id=@id. -/
def deleteEntry (s : Store) (id : Nat) : Store :=
  { s with entries := s.entries.filter (fun e => e.id ≠ id) }

/-- deleteActivity of src/db.go: DELETE FROM type WHERE id=@id. -/
def deleteActivity (s : Store) (id : Nat) : Store :=
  { s with types := s.types.filter (fun t => t.id ≠ id) }

/-- deleteDepartment of src/db.go: DELETE FROM departments WHERE id=@id. -/
def deleteDepartment (s : Store) (id : Nat) : Store :=
  { s with departments := s.departments.filter (fun d => d.id ≠ id) }

/-- deleteUser of src/db.go: first DELETE FROM entries WHERE user_id=@id,
then DELETE FROM users WHERE id=@id. -/
def deleteUser (s : Store) (id : Nat) : Store :=
  { s with entries := s.entries.filter (fun e => e.userId ≠ id),
           users := s.users.filter (fun u => u.id ≠ id) }

/-- createActivity of src/db.go: INSERT INTO type (status, work, comment). -/
def createActivity (s : Store) (status : String) (work : Int) : Store :=
  { s with types :=
      s.types ++ [⟨(s.types.foldl (fun m t => max m t.id) 0) + 1, status,
        work, ""⟩] }

/-- createDepartment of src/db.go: INSERT INTO departments (name). -/
def createDepartment (s : Store) (name : String) : Store :=
  { s with departments :=
      s.departments ++
        [⟨(s.departments.foldl (fun m d => max m d.id) 0) + 1, name⟩] }

/-- updateUserAutoCheckout of src/db.go: UPDATE users SET
auto_checkout_midnight=@auto WHERE id=@id. -/
def updateUserAutoCheckout (s : Store) (id : Nat) (val : Bool) : Store :=
  { s with users := s.users.map (fun u =>
      if u.id = id then { u with autoCheckoutMidnight := val } else u) }

/-! Concrete fixtures used by the evaluation theorems below. -/

/-- A work-counting activity type with barcode code W. -/
def fixWork : ActivityType := ⟨1, "Work", 1, "W"⟩

/-- The non-work activity type literally named Break. -/
def fixBreakT : ActivityType := ⟨2, "Break", 0, "B"⟩

/-- User 1 with the auto-checkout flag disabled. -/
def fixUserOff : User := ⟨1, "K", false⟩

/-- User 1 with the auto-checkout flag enabled. -/
def fixUserOn : User := ⟨1, "K", true⟩

/-- One user with a single open work entry at local second 0. -/
def storeOpenEntry : Store := ⟨[fixUserOff], [fixWork], [], [⟨1, 1, 1, 0⟩]⟩

/-- One user with two entries at the identical timestamp 0 (barcode
double-scan): a work entry inserted first, a Break entry second. -/
def storeDupTie : Store :=
  ⟨[fixUserOff], [fixWork, fixBreakT], [], [⟨1, 1, 1, 0⟩, ⟨2, 1, 2, 0⟩]⟩

/-- One user whose single open work entry lies at local second 7200, i.e.
recorded within two hours of the query instant in a UTC+2 zone. -/
def storeLate : Store := ⟨[fixUserOff], [fixWork], [], [⟨1, 1, 1, 7200⟩]⟩

/-- Auto-checkout-enabled user whose last work entry is at 10:00 of day 0
(second 36000); the next punch arrives at 09:00 of day 1 (second 118800). -/
def storeGap : Store :=
  ⟨[fixUserOn], [fixWork, fixBreakT], [], [⟨1, 1, 1, 36000⟩]⟩

/-- Auto-checkout-enabled user whose last work entry sits exactly at
23:59:59 of day 5 (second 518399). -/
def storeEdge : Store :=
  ⟨[fixUserOn], [fixWork, fixBreakT], [], [⟨1, 1, 1, 518399⟩]⟩

/-! Theorems. -/

/-- C1: the reporting paths do not share one duration rule.  For the same
store (one open work entry at local second 0), the same local as-of instant
14400 (04:00) and UTC offset 7200 (UTC+2), getEntriesWithDetails computes
the open interval's duration in the application (14400 s = 4 h), while
getUserEntriesDetailed, the work_hours daily view and the trend query close
the open interval with the backend's datetime('now') (UTC) and report
7200 s = 2 h: the entry points disagree on the same interval. -/
theorem c1_duration_paths_diverge :
    (getEntriesWithDetails storeOpenEntry 14400).map
        (fun e => e.durationSec) = [14400]
    ∧ (getUserEntriesDetailed storeOpenEntry 1 none none 14400 7200).map
        (fun e => e.durationSec) = [7200]
    ∧ workHoursDaySec storeOpenEntry 1 0 (sqliteNow 14400 7200) = 7200
    ∧ trendTotalSec storeOpenEntry 0 14400 7200 = 7200
    ∧ (14400 : Int) ≠ 7200 := by decide

/-- C2 counterexample: for two events of one user at the identical
timestamp 0 and as-of 100, the reconstruction yields two intervals that
both span the whole range 0..100: consecutive end and start differ, the
intervals overlap, and neither has zero duration, refuting the claim that a
duplicate-timestamp pair yields exactly one zero-duration interval and that
intervals always tile. -/
theorem c2_duplicate_counterexample :
    reconstruct storeDupTie 1 100 = [⟨1, 1, 1, 0, 100⟩, ⟨1, 2, 0, 0, 100⟩]
    ∧ ¬ List.Chain' (fun i j => i.endSec = j.startSec)
        (reconstruct storeDupTie 1 100)
    ∧ ¬ List.Pairwise (fun i j => i.endSec ≤ j.startSec)
        (reconstruct storeDupTie 1 100)
    ∧ (∀ iv ∈ reconstruct storeDupTie 1 100,
        iv.endSec - iv.startSec = 100) := by
  have h : reconstruct storeDupTie 1 100 =
      [⟨1, 1, 1, 0, 100⟩, ⟨1, 2, 0, 0, 100⟩] := by decide
  refine ⟨h, ?_, ?_, by decide⟩
  · rw [h]
    simp [List.chain'_cons, List.chain'_singleton]
  · rw [h]
    simp [List.pairwise_cons]

/-- C3: getUserEntriesDetailed reports a negative duration.  With a UTC+2
zone (offset 7200) and an open work entry stored at local second 7200,
querying at local as-of 7200 makes the backend's datetime('now') equal 0,
so the SQL duration is -7200 seconds and is returned unclamped, while
getEntriesWithDetails on the same store clamps its Go-computed duration to
zero when the as-of instant precedes the start. -/
theorem c3_negative_duration_eval :
    (getUserEntriesDetailed storeLate 1 none none 7200 7200).map
        (fun e => e.durationSec) = [-7200]
    ∧ ((-7200 : Int) < 0)
    ∧ (getEntriesWithDetails storeLate 3600).map
        (fun e => e.durationSec) = [0] := by decide

/-- C4: the bulk scan path skips the auto-checkout policy.  For an
auto-checkout-enabled user whose last work entry is at second 36000 (day 0,
10:00), a bulk punch at second 118800 (day 1, 09:00) appends only the punch
row and no entry at 23:59:59 of day 0 (second 86399), whereas the
single-entry path createEntry appends the synthetic Break entry at 86399
before the caller's punch. -/
theorem c4_bulk_no_autocheckout_eval :
    (bulkClockHandler storeGap "W" ["K"] 118800 true).2.entries =
      storeGap.entries ++ [⟨2, 1, 1, 118800⟩]
    ∧ (createEntry storeGap 1 1 118800).entries =
      storeGap.entries ++ [⟨2, 1, 2, 86399⟩, ⟨3, 1, 1, 118800⟩]
    ∧ (∀ e ∈ (bulkClockHandler storeGap "W" ["K"] 118800 true).2.entries,
        e.date ≠ midnightEnd (dayOf 36000)) := by decide

/-- C5 counterexample: with the last work entry exactly at 23:59:59 of day
5 (second 518399) and a new event dated day 2 (second 176400), two
consecutive createEntry invocations insert two synthetic non-work entries:
the ORDER BY date DESC LIMIT 1 lookup keeps the first row among the equal
dates 518399, which is still the work entry, so the policy does not
short-circuit on the second call. -/
theorem c5_double_insert_counterexample :
    ((createEntry (createEntry storeEdge 1 1 176400) 1 1 176400).entries.countP
        (fun e => e.typeId = 2)) = 2
    ∧ storeEdge.entries.countP (fun e => e.typeId = 2) = 0 := by decide

/-- C6 counterexample: with two entries of one user at the identical
maximal timestamp 0 (work first, Break second), the current_status view's
first row reports the work type, while the reconstruction's last interval
starts at the Break entry: the resolver and the reconstructor disagree on
the activity type of the last interval. -/
theorem c6_tie_mismatch_counterexample :
    getCurrentStatusForUserID storeDupTie 1 = some ("Work", 0)
    ∧ (reconstruct storeDupTie 1 100).getLast? = some ⟨1, 2, 0, 0, 100⟩
    ∧ (findType storeDupTie 2).map (fun t => t.status) = some "Break"
    ∧ "Work" ≠ "Break" := by decide

/-- C8 counterexample: when the punch insert fails, the single clock path
still answers 303 See Other and the bulk path still answers 204 No Content,
with the store unchanged: the failure is not surfaced to the caller. -/
theorem c8_swallowed_failure_counterexample :
    (clockInOut storeOpenEntry 1 1 100 false).1 = HTTPResponse.seeOther
    ∧ (clockInOut storeOpenEntry 1 1 100 false).2.entries =
        storeOpenEntry.entries
    ∧ (bulkClockHandler storeOpenEntry "W" ["K"] 100 false).1 =
        HTTPResponse.noContent
    ∧ (bulkClockHandler storeOpenEntry "W" ["K"] 100 false).2.entries =
        storeOpenEntry.entries := by decide

/-- C9 counterexample: deleteUser removes entry rows (it deletes all
entries of the user before deleting the user row), so entry rows are not
removed only by the explicit entry-deletion operation. -/
theorem c9_deleteUser_removes_entries :
    (deleteUser storeDupTie 1).entries = [] ∧ storeDupTie.entries ≠ [] := by
  decide

/-! Helper lemmas about the fold-based minimum, maximum and sort
definitions. -/

theorem foldl_keepMin_some (l : List Int) (a : Int) :
    ∃ m, l.foldl keepMin (some a) = some m ∧ m ≤ a ∧ (m = a ∨ m ∈ l) ∧
      ∀ x ∈ l, m ≤ x := by
  induction l generalizing a with
  | nil => exact ⟨a, rfl, le_refl a, Or.inl rfl, by simp⟩
  | cons x t ih =>
    simp only [List.foldl_cons]
    by_cases hx : x < a
    · have hk : keepMin (some a) x = some x := by simp [keepMin, hx]
      rw [hk]
      obtain ⟨m, hm, hma, hmem, hall⟩ := ih x
      refine ⟨m, hm, by omega, ?_, ?_⟩
      · rcases hmem with h | h
        · exact Or.inr (by rw [h]; exact List.mem_cons_self x t)
        · exact Or.inr (List.mem_cons_of_mem x h)
      · intro y hy
        rcases List.mem_cons.mp hy with h | h
        · rw [h]; omega
        · exact hall y h
    · have hk : keepMin (some a) x = some a := by simp [keepMin, hx]
      rw [hk]
      obtain ⟨m, hm, hma, hmem, hall⟩ := ih a
      refine ⟨m, hm, hma, ?_, ?_⟩
      · rcases hmem with h | h
        · exact Or.inl h
        · exact Or.inr (List.mem_cons_of_mem x h)
      · intro y hy
        rcases List.mem_cons.mp hy with h | h
        · rw [h]; omega
        · exact hall y h

theorem minGreater_some_spec (ds : List Int) (d m : Int)
    (h : minGreater ds d = some m) :
    m ∈ ds ∧ d < m ∧ ∀ x ∈ ds, d < x → m ≤ x := by
  unfold minGreater at h
  rcases hf : ds.filter (fun x => decide (d < x)) with _ | ⟨x, t⟩
  · rw [hf] at h
    simp at h
  · rw [hf] at h
    simp only [List.foldl_cons] at h
    have hk : keepMin none x = some x := rfl
    rw [hk] at h
    obtain ⟨m1, hm1, hma, hmem, hall⟩ := foldl_keepMin_some t x
    rw [hm1] at h
    have hmm : m1 = m := by injection h
    subst hmm
    have hxf : x ∈ ds.filter (fun x => decide (d < x)) := by
      rw [hf]; exact List.mem_cons_self x t
    have hmf : m1 ∈ ds.filter (fun x => decide (d < x)) := by
      rcases hmem with he | he
      · rw [he]; exact hxf
      · rw [hf]; exact List.mem_cons_of_mem x he
    have hmds := List.mem_filter.mp hmf
    refine ⟨hmds.1, by simpa using hmds.2, ?_⟩
    intro y hy hdy
    have hyf : y ∈ ds.filter (fun x => decide (d < x)) :=
      List.mem_filter.mpr ⟨hy, by simpa using hdy⟩
    rw [hf] at hyf
    rcases List.mem_cons.mp hyf with h1 | h1
    · rw [h1]; exact hma
    · exact hall y h1

theorem minGreater_none_spec (ds : List Int) (d : Int)
    (h : minGreater ds d = none) : ∀ x ∈ ds, ¬ d < x := by
  intro x hx hdx
  unfold minGreater at h
  rcases hf : ds.filter (fun x => decide (d < x)) with _ | ⟨y, t⟩
  · have : x ∈ ds.filter (fun x => decide (d < x)) :=
      List.mem_filter.mpr ⟨hx, by simpa using hdx⟩
    rw [hf] at this
    simp at this
  · rw [hf] at h
    simp only [List.foldl_cons] at h
    have hk : keepMin none y = some y := rfl
    rw [hk] at h
    obtain ⟨m1, hm1, _, _, _⟩ := foldl_keepMin_some t y
    rw [hm1] at h
    simp at h

theorem minGreater_eq_some_iff (ds : List Int) (d m : Int) :
    minGreater ds d = some m ↔
      (m ∈ ds ∧ d < m ∧ ∀ x ∈ ds, d < x → m ≤ x) := by
  constructor
  · exact minGreater_some_spec ds d m
  · rintro ⟨hmem, hdm, hub⟩
    rcases hr : minGreater ds d with _ | m1
    · exact absurd hdm (minGreater_none_spec ds d hr m hmem)
    · obtain ⟨hm1, hdm1, hub1⟩ := minGreater_some_spec ds d m1 hr
      have h2 := hub m1 hm1 hdm1
      have h3 := hub1 m hmem hdm
      have : m1 = m := by omega
      rw [this]

theorem minGreater_congr_perm (ds ds' : List Int) (d : Int)
    (h : ds.Perm ds') : minGreater ds d = minGreater ds' d := by
  rcases hr : minGreater ds d with _ | m
  · rcases hr' : minGreater ds' d with _ | m'
    · rfl
    · obtain ⟨hm', hdm', _⟩ := minGreater_some_spec ds' d m' hr'
      exact absurd hdm'
        (minGreater_none_spec ds d hr m' (h.mem_iff.mpr hm'))
  · obtain ⟨hm, hdm, hub⟩ := minGreater_some_spec ds d m hr
    symm
    rw [minGreater_eq_some_iff]
    exact ⟨h.mem_iff.mp hm, hdm,
      fun x hx hdx => hub x (h.mem_iff.mpr hx) hdx⟩

theorem foldl_keepMax_some (l : List Int) (a : Int) :
    ∃ m, l.foldl keepMax (some a) = some m ∧ a ≤ m ∧ (m = a ∨ m ∈ l) ∧
      ∀ x ∈ l, x ≤ m := by
  induction l generalizing a with
  | nil => exact ⟨a, rfl, le_refl a, Or.inl rfl, by simp⟩
  | cons x t ih =>
    simp only [List.foldl_cons]
    by_cases hx : a < x
    · have hk : keepMax (some a) x = some x := by simp [keepMax, hx]
      rw [hk]
      obtain ⟨m, hm, hma, hmem, hall⟩ := ih x
      refine ⟨m, hm, by omega, ?_, ?_⟩
      · rcases hmem with h | h
        · exact Or.inr (by rw [h]; exact List.mem_cons_self x t)
        · exact Or.inr (List.mem_cons_of_mem x h)
      · intro y hy
        rcases List.mem_cons.mp hy with h | h
        · rw [h]; omega
        · exact hall y h
    · have hk : keepMax (some a) x = some a := by simp [keepMax, hx]
      rw [hk]
      obtain ⟨m, hm, hma, hmem, hall⟩ := ih a
      refine ⟨m, hm, hma, ?_, ?_⟩
      · rcases hmem with h | h
        · exact Or.inl h
        · exact Or.inr (List.mem_cons_of_mem x h)
      · intro y hy
        rcases List.mem_cons.mp hy with h | h
        · rw [h]; omega
        · exact hall y h

theorem maxDateOf_some_spec (s : Store) (uid : Nat) (m : Int)
    (h : maxDateOf s uid = some m) :
    m ∈ (userEntries s uid).map (fun e => e.date) ∧
      ∀ e ∈ userEntries s uid, e.date ≤ m := by
  unfold maxDateOf at h
  rcases hf : (userEntries s uid).map (fun e => e.date) with _ | ⟨x, t⟩
  · rw [hf] at h
    simp at h
  · rw [hf] at h
    simp only [List.foldl_cons] at h
    have hk : keepMax none x = some x := rfl
    rw [hk] at h
    obtain ⟨m1, hm1, hma, hmem, hall⟩ := foldl_keepMax_some t x
    rw [hm1] at h
    have hmm : m1 = m := by injection h
    subst hmm
    constructor
    · rw [hf]
      rcases hmem with he | he
      · rw [he]; exact List.mem_cons_self x t
      · exact List.mem_cons_of_mem x he
    · intro e he
      have : e.date ∈ (userEntries s uid).map (fun e => e.date) :=
        List.mem_map_of_mem _ he
      rw [hf] at this
      rcases List.mem_cons.mp this with h1 | h1
      · rw [h1]; exact hma
      · exact hall _ h1

theorem maxDateOf_eq_none (s : Store) (uid : Nat)
    (h : userEntries s uid = []) : maxDateOf s uid = none := by
  unfold maxDateOf
  rw [h]
  rfl

theorem maxDateOf_isSome (s : Store) (uid : Nat)
    (h : userEntries s uid ≠ []) : ∃ m, maxDateOf s uid = some m := by
  rcases hr : maxDateOf s uid with _ | m
  · unfold maxDateOf at hr
    rcases hf : (userEntries s uid).map (fun e => e.date) with _ | ⟨x, t⟩
    · exact absurd (List.map_eq_nil_iff.mp hf) h
    · rw [hf] at hr
      simp only [List.foldl_cons] at hr
      have hk : keepMax none x = some x := rfl
      rw [hk] at hr
      obtain ⟨m1, hm1, _, _, _⟩ := foldl_keepMax_some t x
      rw [hm1] at hr
      simp at hr
  · exact ⟨m, rfl⟩

theorem foldl_laterEntry_some (l : List Entry) (a : Entry) :
    ∃ b, l.foldl laterEntry (some a) = some b ∧ a.date ≤ b.date ∧
      (b = a ∨ b ∈ l) ∧ ∀ e ∈ l, e.date ≤ b.date := by
  induction l generalizing a with
  | nil => exact ⟨a, rfl, le_refl _, Or.inl rfl, by simp⟩
  | cons x t ih =>
    simp only [List.foldl_cons]
    by_cases hx : a.date < x.date
    · have hk : laterEntry (some a) x = some x := by simp [laterEntry, hx]
      rw [hk]
      obtain ⟨b, hb, hba, hmem, hall⟩ := ih x
      refine ⟨b, hb, by omega, ?_, ?_⟩
      · rcases hmem with h | h
        · exact Or.inr (by rw [h]; exact List.mem_cons_self x t)
        · exact Or.inr (List.mem_cons_of_mem x h)
      · intro y hy
        rcases List.mem_cons.mp hy with h | h
        · rw [h]; omega
        · exact hall y h
    · have hk : laterEntry (some a) x = some a := by simp [laterEntry, hx]
      rw [hk]
      obtain ⟨b, hb, hba, hmem, hall⟩ := ih a
      refine ⟨b, hb, hba, ?_, ?_⟩
      · rcases hmem with h | h
        · exact Or.inl h
        · exact Or.inr (List.mem_cons_of_mem x h)
      · intro y hy
        rcases List.mem_cons.mp hy with h | h
        · rw [h]; omega
        · exact hall y h

theorem lastEntryOf_some_spec (s : Store) (uid : Nat) (b : Entry)
    (h : lastEntryOf s uid = some b) :
    b ∈ userEntries s uid ∧ ∀ e ∈ userEntries s uid, e.date ≤ b.date := by
  unfold lastEntryOf at h
  rcases hf : userEntries s uid with _ | ⟨x, t⟩
  · rw [hf] at h
    simp at h
  · rw [hf] at h
    simp only [List.foldl_cons] at h
    have hk : laterEntry none x = some x := rfl
    rw [hk] at h
    obtain ⟨b1, hb1, hba, hmem, hall⟩ := foldl_laterEntry_some t x
    rw [hb1] at h
    have hbb : b1 = b := by injection h
    subst hbb
    constructor
    · rcases hmem with he | he
      · rw [he]; exact List.mem_cons_self x t
      · exact List.mem_cons_of_mem x he
    · intro e he
      rcases List.mem_cons.mp he with h1 | h1
      · rw [h1]; exact hba
      · exact hall e h1

theorem insertAsc_perm (e : Entry) (l : List Entry) :
    (insertAsc e l).Perm (e :: l) := by
  induction l with
  | nil => simp [insertAsc]
  | cons x t ih =>
    unfold insertAsc
    by_cases h : e.date < x.date
    · rw [if_pos h]
    · rw [if_neg h]
      exact (ih.cons x).trans (List.Perm.swap e x t)

theorem sortByDateAsc_perm (l : List Entry) : (sortByDateAsc l).Perm l := by
  suffices h : ∀ (l acc : List Entry),
      (l.foldl (fun acc e => insertAsc e acc) acc).Perm (acc ++ l) by
    simpa using h l []
  intro l
  induction l with
  | nil => intro acc; simp
  | cons e t ih =>
    intro acc
    simp only [List.foldl_cons]
    refine (ih (insertAsc e acc)).trans ?_
    refine (((insertAsc_perm e acc).append_right t).trans ?_)
    exact List.perm_middle.symm

theorem insertAsc_pairwise (e : Entry) (l : List Entry)
    (h : l.Pairwise (fun a b => a.date ≤ b.date)) :
    (insertAsc e l).Pairwise (fun a b => a.date ≤ b.date) := by
  induction l with
  | nil => simp [insertAsc]
  | cons x t ih =>
    rw [List.pairwise_cons] at h
    obtain ⟨hx, ht⟩ := h
    unfold insertAsc
    by_cases hc : e.date < x.date
    · rw [if_pos hc]
      rw [List.pairwise_cons]
      refine ⟨?_, List.pairwise_cons.mpr ⟨hx, ht⟩⟩
      intro y hy
      rcases List.mem_cons.mp hy with h1 | h1
      · rw [h1]; omega
      · have := hx y h1; omega
    · rw [if_neg hc]
      rw [List.pairwise_cons]
      refine ⟨?_, ih ht⟩
      intro y hy
      have hm : y ∈ e :: t := (insertAsc_perm e t).mem_iff.mp hy
      rcases List.mem_cons.mp hm with h1 | h1
      · rw [h1]; omega
      · exact hx y h1

theorem sortByDateAsc_pairwise (l : List Entry) :
    (sortByDateAsc l).Pairwise (fun a b => a.date ≤ b.date) := by
  suffices h : ∀ (l acc : List Entry),
      acc.Pairwise (fun a b => a.date ≤ b.date) →
      (l.foldl (fun acc e => insertAsc e acc) acc).Pairwise
        (fun a b => a.date ≤ b.date) by
    exact h l [] (by simp)
  intro l
  induction l with
  | nil => intro acc h; simpa using h
  | cons e t ih =>
    intro acc h
    simp only [List.foldl_cons]
    exact ih _ (insertAsc_pairwise e acc h)

theorem insertDesc_perm (e : Entry) (l : List Entry) :
    (insertDesc e l).Perm (e :: l) := by
  induction l with
  | nil => simp [insertDesc]
  | cons x t ih =>
    unfold insertDesc
    by_cases h : x.date < e.date
    · rw [if_pos h]
    · rw [if_neg h]
      exact (ih.cons x).trans (List.Perm.swap e x t)

theorem sortByDateDesc_perm (l : List Entry) : (sortByDateDesc l).Perm l := by
  suffices h : ∀ (l acc : List Entry),
      (l.foldl (fun acc e => insertDesc e acc) acc).Perm (acc ++ l) by
    simpa using h l []
  intro l
  induction l with
  | nil => intro acc; simp
  | cons e t ih =>
    intro acc
    simp only [List.foldl_cons]
    refine (ih (insertDesc e acc)).trans ?_
    refine (((insertDesc_perm e acc).append_right t).trans ?_)
    exact List.perm_middle.symm

theorem insertDesc_pairwise (e : Entry) (l : List Entry)
    (h : l.Pairwise (fun a b => b.date ≤ a.date)) :
    (insertDesc e l).Pairwise (fun a b => b.date ≤ a.date) := by
  induction l with
  | nil => simp [insertDesc]
  | cons x t ih =>
    rw [List.pairwise_cons] at h
    obtain ⟨hx, ht⟩ := h
    unfold insertDesc
    by_cases hc : x.date < e.date
    · rw [if_pos hc]
      rw [List.pairwise_cons]
      refine ⟨?_, List.pairwise_cons.mpr ⟨hx, ht⟩⟩
      intro y hy
      rcases List.mem_cons.mp hy with h1 | h1
      · rw [h1]; omega
      · have := hx y h1; omega
    · rw [if_neg hc]
      rw [List.pairwise_cons]
      refine ⟨?_, ih ht⟩
      intro y hy
      have hm : y ∈ e :: t := (insertDesc_perm e t).mem_iff.mp hy
      rcases List.mem_cons.mp hm with h1 | h1
      · rw [h1]; omega
      · exact hx y h1

theorem sortByDateDesc_pairwise (l : List Entry) :
    (sortByDateDesc l).Pairwise (fun a b => b.date ≤ a.date) := by
  suffices h : ∀ (l acc : List Entry),
      acc.Pairwise (fun a b => b.date ≤ a.date) →
      (l.foldl (fun acc e => insertDesc e acc) acc).Pairwise
        (fun a b => b.date ≤ a.date) by
    exact h l [] (by simp)
  intro l
  induction l with
  | nil => intro acc h; simpa using h
  | cons e t ih =>
    intro acc h
    simp only [List.foldl_cons]
    exact ih _ (insertDesc_pairwise e acc h)

theorem lastEntryOf_isSome (s : Store) (uid : Nat)
    (h : userEntries s uid ≠ []) : ∃ b, lastEntryOf s uid = some b := by
  rcases hr : lastEntryOf s uid with _ | b
  · unfold lastEntryOf at hr
    rcases hf : userEntries s uid with _ | ⟨x, t⟩
    · exact absurd hf h
    · rw [hf] at hr
      simp only [List.foldl_cons] at hr
      have hk : laterEntry none x = some x := rfl
      rw [hk] at hr
      obtain ⟨b1, hb1, _, _, _⟩ := foldl_laterEntry_some t x
      rw [hb1] at hr
      simp at hr
  · exact ⟨b, rfl⟩

theorem detailTake_spec (l : List Entry) (n : Nat) (f : Entry → EntryDetail)
    (hf : ∀ e, (f e).startSec = e.date) :
    (((sortByDateDesc l).take n).map f).length = min n l.length
    ∧ (((sortByDateDesc l).take n).map f).Pairwise
        (fun a b => b.startSec ≤ a.startSec)
    ∧ ∀ e ∈ (sortByDateDesc l).drop n,
        ∀ r ∈ ((sortByDateDesc l).take n).map f, e.date ≤ r.startSec := by
  refine ⟨?_, ?_, ?_⟩
  · rw [List.length_map, List.length_take, (sortByDateDesc_perm l).length_eq]
  · have hs := sortByDateDesc_pairwise l
    have ht : ((sortByDateDesc l).take n).Pairwise
        (fun a b => b.date ≤ a.date) :=
      hs.sublist (List.take_sublist _ _)
    rw [List.pairwise_map]
    exact ht.imp (fun h => by rw [hf, hf]; exact h)
  · intro e he r hr
    rw [List.mem_map] at hr
    obtain ⟨a, ha, rfl⟩ := hr
    rw [hf]
    have hs := sortByDateDesc_pairwise l
    rw [← List.take_append_drop n (sortByDateDesc l),
      List.pairwise_append] at hs
    exact hs.2.2 a ha e he

/-- C10: both entry-detail reads silently truncate: getEntriesWithDetails
returns exactly min(1000, n) rows, where n counts the entries surviving
the query's inner JOINs, and getUserEntriesDetailed exactly min(2000, m)
rows for the m matching joined entries, each ordered by date descending,
and every omitted (dropped) entry is no more recent than any returned row,
so when more matching entries exist than the cap the older ones are
omitted. -/
theorem c10_caps_and_ordering (s : Store) (asOf tz : Int) (uid : Nat)
    (fromD toD : Option Int) :
    (getEntriesWithDetails s asOf).length = min 1000 (joinedEntries s).length
    ∧ (getEntriesWithDetails s asOf).Pairwise
        (fun a b => b.startSec ≤ a.startSec)
    ∧ (∀ e ∈ (sortByDateDesc (joinedEntries s)).drop 1000,
        ∀ r ∈ getEntriesWithDetails s asOf, e.date ≤ r.startSec)
    ∧ (getUserEntriesDetailed s uid fromD toD asOf tz).length =
        min 2000 (detailRows s uid fromD toD).length
    ∧ (getUserEntriesDetailed s uid fromD toD asOf tz).Pairwise
        (fun a b => b.startSec ≤ a.startSec)
    ∧ (∀ e ∈ (sortByDateDesc (detailRows s uid fromD toD)).drop 2000,
        ∀ r ∈ getUserEntriesDetailed s uid fromD toD asOf tz,
          e.date ≤ r.startSec) := by
  unfold getEntriesWithDetails getUserEntriesDetailed
  obtain ⟨h1, h2, h3⟩ := detailTake_spec (joinedEntries s) 1000
    (fun e =>
      let endOpt := nextDateAfter s e.userId e.date
      { id := e.id, userId := e.userId, activityId := e.typeId,
        startSec := e.date,
        endSec := (endOpt.map parseDBTimeInLoc).getD asOf,
        durationSec := goDuration e.date endOpt asOf })
    (fun e => rfl)
  obtain ⟨h4, h5, h6⟩ := detailTake_spec (detailRows s uid fromD toD) 2000
    (fun e =>
      let endSec := (nextDateAfter s uid e.date).getD (sqliteNow asOf tz)
      { id := e.id, userId := e.userId, activityId := e.typeId,
        startSec := e.date, endSec := endSec,
        durationSec := endSec - e.date })
    (fun e => rfl)
  exact ⟨h1, h2, h3, h4, h5, h6⟩

/-- C10 witness: the cap equation of c10_caps_and_ordering evaluated on the
two-entry fixture, whose rows all survive the joins. -/
theorem c10_caps_and_ordering_witness :
    (getEntriesWithDetails storeDupTie 100).length =
      min 1000 (joinedEntries storeDupTie).length :=
  (c10_caps_and_ordering storeDupTie 100 0 1 none none).1

/-- C7: when no non-work activity type exists, the auto-checkout inserter
changes nothing and createEntry still records exactly the caller's entry:
a missing non-work configuration row neither blocks the punch nor surfaces
an error. -/
theorem c7_missing_nonwork_skips (s : Store) (uid aid : Nat) (d : Int)
    (h : ∀ t ∈ s.types, t.work ≠ 0) :
    ensureMidnightAutoCheckoutWithDB s uid d = s
    ∧ (createEntry s uid aid d).entries =
        s.entries ++ [⟨nextId s, uid, aid, d⟩] := by
  have hnw : nonWorkType s = none := by
    unfold nonWorkType
    have hnil : s.types.filter (fun t => t.work = 0) = [] := by
      rw [List.filter_eq_nil_iff]
      intro t ht
      simpa using h t ht
    rw [hnil]
    rfl
  have hens : ensureMidnightAutoCheckoutWithDB s uid d = s := by
    unfold ensureMidnightAutoCheckoutWithDB
    rw [hnw]
    repeat' split
    all_goals simp_all
  refine ⟨hens, ?_⟩
  simp [createEntry, createEntryWith, hens, appendEntry]

/-- C7 witness: c7_missing_nonwork_skips applied to the fixture whose only
activity type is the work type. -/
theorem c7_missing_nonwork_skips_witness :
    ensureMidnightAutoCheckoutWithDB storeOpenEntry 1 200000 = storeOpenEntry
    ∧ (createEntry storeOpenEntry 1 1 200000).entries =
        storeOpenEntry.entries ++ [⟨nextId storeOpenEntry, 1, 1, 200000⟩] :=
  c7_missing_nonwork_skips storeOpenEntry 1 1 200000 (by decide)

/-- C8 amended: punch-insert failures are logged and swallowed, never
surfaced: with failing inserts the single clock path still answers 303 See
Other (its store only containing whatever the auto-checkout step wrote) and
the bulk path still answers 204 No Content with the store unchanged. -/
theorem c8_insert_failures_not_surfaced (s : Store) (uid aid : Nat)
    (now : Int) (code : String) (keys : List String) (act : ActivityType)
    (h0 : uid ≠ 0) (h1 : aid ≠ 0) (h2 : findTypeByCode s code = some act) :
    (clockInOut s uid aid now false).1 = HTTPResponse.seeOther
    ∧ (clockInOut s uid aid now false).2.entries =
        (ensureMidnightAutoCheckoutWithDB s uid now).entries
    ∧ (bulkClockHandler s code keys now false).1 = HTTPResponse.noContent
    ∧ (bulkClockHandler s code keys now false).2 = s := by
  have hio : clockInOut s uid aid now false =
      (HTTPResponse.seeOther, createEntryWith s uid aid now false) := by
    unfold clockInOut
    rw [if_neg (by simp [h0, h1])]
  have hcw : createEntryWith s uid aid now false =
      ensureMidnightAutoCheckoutWithDB s uid now := by
    simp [createEntryWith]
  have hstep : ∀ (st : Store) (k : String),
      bulkStep act now false st k = st := by
    intro st k
    unfold bulkStep
    cases findUserByStampkey st k <;> rfl
  have hfold : ∀ (l : List String) (st : Store),
      l.foldl (bulkStep act now false) st = st := by
    intro l
    induction l with
    | nil => intro st; rfl
    | cons k t ih =>
      intro st
      simp only [List.foldl_cons]
      rw [hstep st k]
      exact ih st
  have hbulk : bulkClockHandler s code keys now false =
      (HTTPResponse.noContent, s) := by
    unfold bulkClockHandler
    rw [h2]
    show (HTTPResponse.noContent, keys.foldl (bulkStep act now false) s) =
      (HTTPResponse.noContent, s)
    rw [hfold keys s]
  refine ⟨by rw [hio], by rw [hio, hcw], by rw [hbulk], by rw [hbulk]⟩

/-- C8 witness: c8_insert_failures_not_surfaced on the one-entry fixture
with the work activity code. -/
theorem c8_insert_failures_not_surfaced_witness :
    (clockInOut storeOpenEntry 1 1 100 false).1 = HTTPResponse.seeOther
    ∧ (clockInOut storeOpenEntry 1 1 100 false).2.entries =
        (ensureMidnightAutoCheckoutWithDB storeOpenEntry 1 100).entries
    ∧ (bulkClockHandler storeOpenEntry "W" ["K"] 100 false).1 =
        HTTPResponse.noContent
    ∧ (bulkClockHandler storeOpenEntry "W" ["K"] 100 false).2 =
        storeOpenEntry :=
  c8_insert_failures_not_surfaced storeOpenEntry 1 1 100 "W" ["K"] fixWork
    (by decide) (by decide) (by decide)

theorem chain_imp_mem {α : Type} {R S : α → α → Prop} :
    ∀ (l : List α), List.Chain' R l →
      (∀ a ∈ l, ∀ b ∈ l, R a b → S a b) → List.Chain' S l := by
  intro l
  induction l with
  | nil => intro _ _; trivial
  | cons x t ih =>
    intro h hmem
    obtain ⟨hhead, ht⟩ := List.chain'_cons'.mp h
    refine List.chain'_cons'.mpr ⟨?_, ?_⟩
    · intro y hy
      have hyt : y ∈ t := by
        cases t with
        | nil => simp at hy
        | cons z u =>
          have hz : z = y := by simpa using hy
          rw [← hz]; exact List.mem_cons_self z u
      exact hmem x (List.mem_cons_self x t) y (List.mem_cons_of_mem x hyt)
        (hhead y hy)
    · exact ih ht (fun a ha b hb hr =>
        hmem a (List.mem_cons_of_mem x ha) b (List.mem_cons_of_mem x hb) hr)

theorem filterMap_eq_map_getD {α β : Type} (l : List α) (f : α → Option β)
    (dflt : β) (h : ∀ e ∈ l, (f e).isSome) :
    l.filterMap f = l.map (fun e => (f e).getD dflt) := by
  induction l with
  | nil => rfl
  | cons x t ih =>
    have hx : (f x).isSome := h x (List.mem_cons_self x t)
    rcases hfx : f x with _ | b
    · rw [hfx] at hx; simp at hx
    · rw [List.filterMap_cons, hfx, List.map_cons, hfx]
      simp only [Option.getD_some]
      rw [ih (fun e he => h e (List.mem_cons_of_mem x he))]

theorem getLast?_map_eq {α β : Type} (l : List α) (g : α → β) :
    (l.map g).getLast? = l.getLast?.map g := by
  induction l with
  | nil => rfl
  | cons x t ih =>
    cases t with
    | nil => rfl
    | cons y u =>
      rw [List.map_cons, List.map_cons, List.getLast?_cons_cons,
        List.getLast?_cons_cons, ← List.map_cons]
      exact ih

theorem chain_minGreater_of_sorted (L : List Entry)
    (h : L.Pairwise (fun a b => a.date < b.date)) :
    List.Chain' (fun a b =>
      minGreater (L.map (fun e => e.date)) a.date = some b.date) L := by
  rw [List.chain'_iff_get]
  intro i hi
  have hli : i + 1 < L.length := by omega
  rw [minGreater_eq_some_iff]
  have hpg := List.pairwise_iff_get.mp h
  refine ⟨?_, ?_, ?_⟩
  · exact List.mem_map_of_mem _ (List.get_mem L _ _)
  · exact hpg ⟨i, by omega⟩ ⟨i + 1, hli⟩ (by simp)
  · intro x hx hlt
    rw [List.mem_map] at hx
    obtain ⟨e, he, rfl⟩ := hx
    rw [List.mem_iff_get] at he
    obtain ⟨⟨j, hj⟩, rfl⟩ := he
    by_cases hij : j ≤ i
    · rcases Nat.lt_or_ge j i with h1 | h1
      · have := hpg ⟨j, hj⟩ ⟨i, by omega⟩ (by simpa using h1)
        omega
      · have hji : j = i := by omega
        subst hji
        omega
    · push_neg at hij
      rcases Nat.eq_or_lt_of_le (show i + 1 ≤ j by omega) with h1 | h1
      · have : (⟨i + 1, hli⟩ : Fin L.length) = ⟨j, hj⟩ := by
          simp [h1]
        rw [← this]
      · exact le_of_lt (hpg ⟨i + 1, hli⟩ ⟨j, hj⟩ (by simpa using h1))

theorem pairwise_of_chain :
    ∀ (l : List Interval),
      List.Chain' (fun a b => a.endSec = b.startSec) l →
      (∀ iv ∈ l, iv.startSec ≤ iv.endSec) →
      List.Pairwise (fun a b => a.endSec ≤ b.startSec) l ∧
      ∀ b ∈ l, ∀ a ∈ l.head?, a.startSec ≤ b.startSec := by
  intro l
  induction l with
  | nil => simp
  | cons x t ih =>
    intro hc hle
    obtain ⟨hhead, hct⟩ := List.chain'_cons'.mp hc
    obtain ⟨hpt, hmono⟩ :=
      ih hct (fun iv hv => hle iv (List.mem_cons_of_mem x hv))
    constructor
    · rw [List.pairwise_cons]
      refine ⟨?_, hpt⟩
      intro b hb
      cases t with
      | nil => simp at hb
      | cons y u =>
        have hxy : x.endSec = y.startSec := hhead y rfl
        have hyb : y.startSec ≤ b.startSec := hmono b hb y rfl
        omega
    · intro b hb a ha
      have hax : x = a := by simpa using ha
      subst hax
      rcases List.mem_cons.mp hb with h1 | h1
      · rw [h1]
      · cases t with
        | nil => simp at h1
        | cons y u =>
          have hxy : x.endSec = y.startSec := hhead y rfl
          have hyb : y.startSec ≤ b.startSec := hmono b h1 y rfl
          have hxe : x.startSec ≤ x.endSec :=
            hle x (List.mem_cons_self x _)
          omega

theorem getLast?_mem_own {α : Type} :
    ∀ (l : List α) (a : α), l.getLast? = some a → a ∈ l := by
  intro l
  induction l with
  | nil => intro a h; simp at h
  | cons x t ih =>
    intro a h
    cases t with
    | nil =>
      have hx : x = a := by simpa using h
      rw [← hx]; exact List.mem_cons_self x []
    | cons y u =>
      rw [List.getLast?_cons_cons] at h
      exact List.mem_cons_of_mem x (ih a h)

theorem head?_map_eq {α β : Type} (l : List α) (g : α → β) :
    (l.map g).head? = l.head?.map g := by
  cases l <;> rfl

theorem sorted_getLast_max :
    ∀ (L : List Entry), L.Pairwise (fun a b => a.date ≤ b.date) →
      ∀ (e : Entry), L.getLast? = some e → ∀ d ∈ L, d.date ≤ e.date := by
  intro L
  induction L with
  | nil => intro _ e he; simp at he
  | cons x t ih =>
    intro hs e he d hd
    rw [List.pairwise_cons] at hs
    cases t with
    | nil =>
      have hx : x = e := by simpa using he
      have hdx : d = x := by simpa using hd
      rw [hdx, hx]
    | cons y u =>
      rw [List.getLast?_cons_cons] at he
      rcases List.mem_cons.mp hd with h1 | h1
      · have hem : e ∈ y :: u := getLast?_mem_own (y :: u) e he
        have := hs.1 e hem
        rw [h1]; exact this
      · exact ih hs.2 e he d h1

/-- C2 amended: over a single user's entries with pairwise distinct
timestamps, whose types all exist, and an as-of instant at or after every
event, the reconstructed intervals tile exactly: consecutive end equals
next start, every interval has nonnegative length, the last interval ends
at asOf, the first starts at the earliest event, the result is nonempty
when events exist, and the intervals are pairwise non-overlapping.  (For a
duplicated timestamp the code instead produces two identical overlapping
intervals, not one zero-duration interval — see the counterexample.) -/
theorem c2_tiling_strict (s : Store) (uid : Nat) (asOf : Int)
    (hdist : (userEntries s uid).Pairwise (fun a b => a.date ≠ b.date))
    (htype : ∀ e ∈ userEntries s uid, (findType s e.typeId).isSome)
    (hasof : ∀ e ∈ userEntries s uid, e.date ≤ asOf) :
    List.Chain' (fun i j => i.endSec = j.startSec) (reconstruct s uid asOf)
    ∧ (∀ iv ∈ reconstruct s uid asOf, iv.startSec ≤ iv.endSec)
    ∧ (∀ iv, (reconstruct s uid asOf).getLast? = some iv →
        iv.endSec = asOf)
    ∧ (∀ iv, (reconstruct s uid asOf).head? = some iv →
        ∀ e ∈ userEntries s uid, iv.startSec ≤ e.date)
    ∧ (userEntries s uid ≠ [] → (findUser s uid).isSome →
        reconstruct s uid asOf ≠ [])
    ∧ List.Pairwise (fun i j => i.endSec ≤ j.startSec)
        (reconstruct s uid asOf) := by
  cases hu : findUser s uid with
  | none =>
    have hr : reconstruct s uid asOf = [] := by
      unfold reconstruct; rw [hu]
    rw [hr]
    refine ⟨by simp, by simp, by simp, by simp, ?_, by simp⟩
    intro _ hus
    simp at hus
  | some u =>
    have hperm : (sortByDateAsc (userEntries s uid)).Perm
        (userEntries s uid) := sortByDateAsc_perm _
    have hsorted := sortByDateAsc_pairwise (userEntries s uid)
    have hneq : (sortByDateAsc (userEntries s uid)).Pairwise
        (fun a b => a.date ≠ b.date) :=
      (List.Perm.pairwise_iff (fun h => Ne.symm h) hperm).mpr hdist
    have hstrict : (sortByDateAsc (userEntries s uid)).Pairwise
        (fun a b => a.date < b.date) :=
      (hsorted.and hneq).imp (fun h => lt_of_le_of_ne h.1 h.2)
    have htypeL : ∀ e ∈ sortByDateAsc (userEntries s uid),
        (findType s e.typeId).isSome :=
      fun e he => htype e (hperm.mem_iff.mp he)
    have hasofL : ∀ e ∈ sortByDateAsc (userEntries s uid), e.date ≤ asOf :=
      fun e he => hasof e (hperm.mem_iff.mp he)
    have hnda : ∀ d, nextDateAfter s uid d =
        minGreater ((sortByDateAsc (userEntries s uid)).map
          (fun e => e.date)) d := by
      intro d
      unfold nextDateAfter
      exact minGreater_congr_perm _ _ d
        ((hperm.map (fun e => e.date)).symm)
    have hmap : reconstruct s uid asOf =
        (sortByDateAsc (userEntries s uid)).map
          (fun e => (intervalOf s uid asOf e).getD dfltInterval) := by
      unfold reconstruct
      rw [hu]
      exact filterMap_eq_map_getD _ _ dfltInterval (fun e he => by
        rcases Option.isSome_iff_exists.mp (htypeL e he) with ⟨t, ht⟩
        simp [intervalOf, ht])
    have hgs : ∀ e ∈ sortByDateAsc (userEntries s uid),
        ((intervalOf s uid asOf e).getD dfltInterval).startSec = e.date := by
      intro e he
      rcases Option.isSome_iff_exists.mp (htypeL e he) with ⟨t, ht⟩
      simp [intervalOf, ht]
    have hge : ∀ e ∈ sortByDateAsc (userEntries s uid),
        ((intervalOf s uid asOf e).getD dfltInterval).endSec =
          (nextDateAfter s uid e.date).getD asOf := by
      intro e he
      rcases Option.isSome_iff_exists.mp (htypeL e he) with ⟨t, ht⟩
      simp [intervalOf, ht]
    have hchain : List.Chain' (fun i j => i.endSec = j.startSec)
        (reconstruct s uid asOf) := by
      rw [hmap, List.chain'_map]
      apply chain_imp_mem _ (chain_minGreater_of_sorted _ hstrict)
      intro a ha b hb hr
      rw [hge a ha, hgs b hb]
      rw [hnda a.date, hr]
      rfl
    have hle : ∀ iv ∈ reconstruct s uid asOf,
        iv.startSec ≤ iv.endSec := by
      rw [hmap]
      intro iv hiv
      rw [List.mem_map] at hiv
      obtain ⟨e, he, rfl⟩ := hiv
      rw [hgs e he, hge e he]
      rcases hnd : nextDateAfter s uid e.date with _ | m
      · simpa using hasofL e he
      · have hspec := minGreater_some_spec _ _ _ ((hnda e.date) ▸ hnd)
        simp only [Option.getD_some]
        omega
    refine ⟨hchain, hle, ?_, ?_, ?_, (pairwise_of_chain _ hchain hle).1⟩
    · intro iv hlast
      rw [hmap, getLast?_map_eq] at hlast
      rcases hL0 : (sortByDateAsc (userEntries s uid)).getLast?
        with _ | e
      · rw [hL0] at hlast; simp at hlast
      · rw [hL0] at hlast
        have hge2 : (intervalOf s uid asOf e).getD dfltInterval = iv := by
          simpa using hlast
        have he : e ∈ sortByDateAsc (userEntries s uid) :=
          getLast?_mem_own _ e hL0
        have hmax := sorted_getLast_max _ hsorted e hL0
        have hnone : nextDateAfter s uid e.date = none := by
          rw [hnda e.date]
          rcases hres : minGreater ((sortByDateAsc
              (userEntries s uid)).map (fun e => e.date)) e.date
            with _ | m
          · exact hres
          · obtain ⟨hm, hdm, _⟩ := minGreater_some_spec _ _ _ hres
            rw [List.mem_map] at hm
            obtain ⟨e2, he2, rfl⟩ := hm
            have := hmax e2 he2
            omega
        rw [← hge2, hge e he, hnone]
        rfl
    · intro iv hhead e he
      rw [hmap, head?_map_eq] at hhead
      rcases hL0 : (sortByDateAsc (userEntries s uid)).head? with _ | x
      · rw [hL0] at hhead; simp at hhead
      · rw [hL0] at hhead
        have hgx : (intervalOf s uid asOf x).getD dfltInterval = iv := by
          simpa using hhead
        have hxL : x ∈ sortByDateAsc (userEntries s uid) := by
          cases hc : sortByDateAsc (userEntries s uid) with
          | nil => rw [hc] at hL0; simp at hL0
          | cons x0 t =>
            have hx0 : x0 = x := by
              rw [hc] at hL0; simpa using hL0
            rw [← hx0]; exact List.mem_cons_self x0 t
        have hmin : ∀ d ∈ sortByDateAsc (userEntries s uid),
            x.date ≤ d.date := by
          intro d hd
          cases hc : sortByDateAsc (userEntries s uid) with
          | nil => rw [hc] at hd; simp at hd
          | cons x0 t =>
            have hx0 : x0 = x := by
              rw [hc] at hL0; simpa using hL0
            rw [hc] at hd hsorted
            rw [List.pairwise_cons] at hsorted
            rcases List.mem_cons.mp hd with h1 | h1
            · rw [h1, ← hx0]
            · have := hsorted.1 d h1
              rw [← hx0]; exact this
        rw [← hgx, hgs x hxL]
        exact hmin e (hperm.mem_iff.mpr he)
    · intro hne _
      rw [hmap]
      intro hcontra
      have hLN : sortByDateAsc (userEntries s uid) = [] :=
        List.map_eq_nil_iff.mp hcontra
      rw [hLN] at hperm
      exact hne (List.Perm.eq_nil hperm.symm)

/-- C2 witness: the chain conjunct of c2_tiling_strict on the one-entry
fixture at as-of 100000. -/
theorem c2_tiling_strict_witness :
    List.Chain' (fun i j => i.endSec = j.startSec)
      (reconstruct storeGap 1 100000) := by
  refine (c2_tiling_strict storeGap 1 100000 ?_ ?_ ?_).1
  · have h : userEntries storeGap 1 = [⟨1, 1, 1, 36000⟩] := by decide
    rw [h]
    exact List.pairwise_singleton _ _
  · decide
  · decide

theorem eq_of_pairwise_ne :
    ∀ (l : List Entry),
      l.Pairwise (fun a b => a.date ≠ b.date) →
      ∀ a ∈ l, ∀ b ∈ l, a.date = b.date → a = b := by
  intro l
  induction l with
  | nil => intro _ a ha; simp at ha
  | cons x t ih =>
    intro h a ha b hb hab
    rw [List.pairwise_cons] at h
    rcases List.mem_cons.mp ha with h1 | h1 <;>
      rcases List.mem_cons.mp hb with h2 | h2
    · rw [h1, h2]
    · exact absurd (h1 ▸ hab) (h.1 b h2)
    · exact absurd (h2 ▸ hab.symm) (h.1 a h1)
    · exact ih h.2 a h1 b h2 hab

theorem head_filterMap_unique {α β : Type} (v : β) :
    ∀ (l : List α) (g : α → Option β),
      (∃ e ∈ l, (g e).isSome) →
      (∀ e ∈ l, g e = none ∨ g e = some v) →
      (l.filterMap g).head? = some v := by
  intro l
  induction l with
  | nil =>
    intro g hex _
    obtain ⟨e, he, _⟩ := hex
    simp at he
  | cons x t ih =>
    intro g hex hval
    rw [List.filterMap_cons]
    rcases hval x (List.mem_cons_self x t) with h0 | h0
    · rw [h0]
      apply ih g
      · obtain ⟨e, he, hs⟩ := hex
        rcases List.mem_cons.mp he with h1 | h1
        · rw [h1, h0] at hs
          simp at hs
        · exact ⟨e, h1, hs⟩
      · exact fun e he => hval e (List.mem_cons_of_mem x he)
    · rw [h0]
      simp

theorem getLast?_none_imp {α : Type} :
    ∀ (l : List α), l.getLast? = none → l = [] := by
  intro l
  induction l with
  | nil => intro _; rfl
  | cons x t ih =>
    intro h
    cases t with
    | nil => simp at h
    | cons y u =>
      rw [List.getLast?_cons_cons] at h
      exact absurd (ih h) (by simp)

/-- C6 amended: for a user whose event timestamps are pairwise distinct and
whose entries all reference existing activity types, the current-status
resolver agrees exactly with the reconstruction: it returns the status name
and timestamp of the entry starting the last reconstructed interval, and a
user with zero events (or a missing user row) yields none on both sides.
(With a duplicated maximal timestamp the two paths can disagree on the
activity — see the counterexample.) -/
theorem c6_status_matches_last_interval (s : Store) (uid : Nat) (asOf : Int)
    (hdist : (userEntries s uid).Pairwise (fun a b => a.date ≠ b.date))
    (htype : ∀ e ∈ userEntries s uid, (findType s e.typeId).isSome) :
    getCurrentStatusForUserID s uid =
      (reconstruct s uid asOf).getLast?.bind (fun iv =>
        (findType s iv.typeId).map (fun t => (t.status, iv.startSec))) := by
  cases hu : findUser s uid with
  | none =>
    have h1 : getCurrentStatusForUserID s uid = none := by
      unfold getCurrentStatusForUserID currentStatusRows
      rw [hu]
      rfl
    have h2 : reconstruct s uid asOf = [] := by
      unfold reconstruct; rw [hu]
    rw [h1, h2]
    rfl
  | some u =>
    cases hE : userEntries s uid with
    | nil =>
      have h1 : getCurrentStatusForUserID s uid = none := by
        unfold getCurrentStatusForUserID currentStatusRows
        rw [hu, maxDateOf_eq_none s uid hE]
        rfl
      have h2 : reconstruct s uid asOf = [] := by
        unfold reconstruct
        rw [hu, hE]
        rfl
      rw [h1, h2]
      rfl
    | cons e0 t0 =>
      have hne : userEntries s uid ≠ [] := by rw [hE]; simp
      have hperm : (sortByDateAsc (userEntries s uid)).Perm
          (userEntries s uid) := sortByDateAsc_perm _
      have hsorted := sortByDateAsc_pairwise (userEntries s uid)
      have htypeL : ∀ e ∈ sortByDateAsc (userEntries s uid),
          (findType s e.typeId).isSome :=
        fun e he => htype e (hperm.mem_iff.mp he)
      have hmap : reconstruct s uid asOf =
          (sortByDateAsc (userEntries s uid)).map
            (fun e => (intervalOf s uid asOf e).getD dfltInterval) := by
        unfold reconstruct
        rw [hu]
        exact filterMap_eq_map_getD _ _ dfltInterval (fun e he => by
          rcases Option.isSome_iff_exists.mp (htypeL e he) with ⟨t, ht⟩
          simp [intervalOf, ht])
      rcases hL0 : (sortByDateAsc (userEntries s uid)).getLast?
        with _ | elast
      · have hLnil := getLast?_none_imp _ hL0
        rw [hLnil] at hperm
        exact absurd (List.Perm.eq_nil hperm.symm) hne
      · have heL : elast ∈ sortByDateAsc (userEntries s uid) :=
          getLast?_mem_own _ elast hL0
        have heU : elast ∈ userEntries s uid := hperm.mem_iff.mp heL
        rcases Option.isSome_iff_exists.mp (htypeL elast heL) with ⟨tl, htl⟩
        obtain ⟨m, hmd⟩ := maxDateOf_isSome s uid hne
        obtain ⟨hmmem, hub⟩ := maxDateOf_some_spec s uid m hmd
        have hmax := sorted_getLast_max _ hsorted elast hL0
        have hmeq : m = elast.date := by
          rw [List.mem_map] at hmmem
          obtain ⟨d, hd, rfl⟩ := hmmem
          have h1 : d.date ≤ elast.date :=
            hmax d (hperm.mem_iff.mpr hd)
          have h2 : elast.date ≤ d.date := hub elast heU
          omega
        have hrhs : (reconstruct s uid asOf).getLast? =
            some ((intervalOf s uid asOf elast).getD dfltInterval) := by
          rw [hmap, getLast?_map_eq, hL0]
          rfl
        have hiv : (intervalOf s uid asOf elast).getD dfltInterval =
            { userId := uid, typeId := elast.typeId, work := tl.work,
              startSec := elast.date,
              endSec := (nextDateAfter s uid elast.date).getD asOf } := by
          simp [intervalOf, htl]
        have hlhs : getCurrentStatusForUserID s uid =
            some (tl.status, elast.date) := by
          unfold getCurrentStatusForUserID currentStatusRows
          rw [hu, hmd]
          show ((userEntries s uid).filterMap (fun e =>
            if e.date = m then
              (findType s e.typeId).map (fun t => (t.status, e.date))
            else none)).head? = some (tl.status, elast.date)
          apply head_filterMap_unique
          · refine ⟨elast, heU, ?_⟩
            rw [if_pos hmeq.symm, htl]
            rfl
          · intro e he
            by_cases hdm : e.date = m
            · have hee : e = elast :=
                eq_of_pairwise_ne _ hdist e he elast heU
                  (by rw [hdm, hmeq])
              right
              rw [if_pos hdm, hee, htl]
              rfl
            · left
              rw [if_neg hdm]
        rw [hlhs, hrhs, hiv]
        simp [htl]

/-- C6 witness: c6_status_matches_last_interval on the one-entry fixture. -/
theorem c6_status_matches_last_interval_witness :
    getCurrentStatusForUserID storeGap 1 =
      (reconstruct storeGap 1 100000).getLast?.bind (fun iv =>
        (findType storeGap iv.typeId).map
          (fun t => (t.status, iv.startSec))) := by
  refine c6_status_matches_last_interval storeGap 1 100000 ?_ ?_
  · have h : userEntries storeGap 1 = [⟨1, 1, 1, 36000⟩] := by decide
    rw [h]
    exact List.pairwise_singleton _ _
  · decide

theorem dayOf_mono {a b : Int} (hab : a ≤ b) : dayOf a ≤ dayOf b := by
  unfold dayOf
  omega

theorem midnightEnd_lt {a b : Int} (hab : dayOf a < dayOf b) :
    midnightEnd (dayOf a) < b := by
  unfold dayOf midnightEnd at *
  omega

theorem userEntries_append (s : Store) (uid tid : Nat) (dd : Int) :
    userEntries (appendEntry s uid tid dd) uid =
      userEntries s uid ++ [⟨nextId s, uid, tid, dd⟩] := by
  unfold userEntries appendEntry
  rw [List.filter_append]
  simp

theorem ensure_cases (s : Store) (uid : Nat) (now : Int) :
    ensureMidnightAutoCheckoutWithDB s uid now = s ∨
    (∃ last nw, lastEntryOf s uid = some last ∧ nonWorkType s = some nw ∧
      dayOf last.date ≠ dayOf now ∧
      ensureMidnightAutoCheckoutWithDB s uid now =
        appendEntry s uid nw.id (midnightEnd (dayOf last.date))) := by
  unfold ensureMidnightAutoCheckoutWithDB
  by_cases h0 : uid = 0
  · rw [if_pos h0]
    exact Or.inl rfl
  · rw [if_neg h0]
    cases hu : findUser s uid with
    | none => exact Or.inl rfl
    | some u =>
      dsimp only
      cases hflag : u.autoCheckoutMidnight with
      | false => exact Or.inl rfl
      | true =>
        rw [if_neg (by simp)]
        cases hl : lastEntryOf s uid with
        | none => exact Or.inl rfl
        | some last =>
          dsimp only
          cases ht : findType s last.typeId with
          | none => exact Or.inl rfl
          | some t =>
            dsimp only
            by_cases hw : t.work ≠ 1
            · rw [if_pos hw]
              exact Or.inl rfl
            · rw [if_neg hw]
              by_cases hd : dayOf last.date = dayOf now
              · rw [if_pos hd]
                exact Or.inl rfl
              · rw [if_neg hd]
                cases hnw : nonWorkType s with
                | none => exact Or.inl rfl
                | some nw => exact Or.inr ⟨last, nw, rfl, rfl, hd, rfl⟩

/-- C5 amended: when the new event's timestamp is at or after every
existing entry of the user (in particular for punches stamped with the
current time), the auto-checkout policy is idempotent across two
consecutive createEntry invocations: after the first call the second
call's ensure step is the identity, so at most one synthetic boundary
entry is inserted.  (With the last work entry exactly at 23:59:59 and a
new event backdated to an earlier day the lookup can keep returning the
work entry among the tied dates and insert again — see the
counterexample.) -/
theorem c5_second_call_inserts_nothing (s : Store) (uid aid : Nat)
    (d : Int) (h : ∀ e ∈ userEntries s uid, e.date ≤ d) :
    ensureMidnightAutoCheckoutWithDB (createEntry s uid aid d) uid d =
      createEntry s uid aid d := by
  by_cases h0 : uid = 0
  · unfold ensureMidnightAutoCheckoutWithDB
    rw [if_pos h0]
  · have hs2 : createEntry s uid aid d =
        appendEntry (ensureMidnightAutoCheckoutWithDB s uid d) uid aid d :=
      rfl
    have hUE : userEntries (createEntry s uid aid d) uid =
        userEntries (ensureMidnightAutoCheckoutWithDB s uid d) uid ++
          [⟨nextId (ensureMidnightAutoCheckoutWithDB s uid d), uid, aid,
            d⟩] := by
      rw [hs2]
      exact userEntries_append _ _ _ _
    have hAll : ∀ e ∈ userEntries (createEntry s uid aid d) uid,
        e.date ≤ d := by
      rw [hUE]
      intro e he
      rcases List.mem_append.mp he with h1 | h1
      · rcases ensure_cases s uid d with hc | ⟨last, nw, hl, hnw, hday, hc⟩
        · rw [hc] at h1
          exact h e h1
        · rw [hc, userEntries_append] at h1
          rcases List.mem_append.mp h1 with h2 | h2
          · exact h e h2
          · have he2 : e = ⟨nextId s, uid, nw.id,
                midnightEnd (dayOf last.date)⟩ := by simpa using h2
            have hlast_mem := (lastEntryOf_some_spec s uid last hl).1
            have hld : last.date ≤ d := h last hlast_mem
            have hd1 : dayOf last.date ≤ dayOf d := dayOf_mono hld
            have hdlt : dayOf last.date < dayOf d := by omega
            have hmlt := midnightEnd_lt (b := d) hdlt
            rw [he2]
            exact le_of_lt hmlt
      · have he2 : e = ⟨nextId (ensureMidnightAutoCheckoutWithDB s uid d),
            uid, aid, d⟩ := by simpa using h1
        rw [he2]
    have hNE : userEntries (createEntry s uid aid d) uid ≠ [] := by
      rw [hUE]
      simp
    obtain ⟨b, hb⟩ := lastEntryOf_isSome _ uid hNE
    obtain ⟨hbm, hbub⟩ := lastEntryOf_some_spec _ uid b hb
    have hbd : b.date = d := by
      have h1 : b.date ≤ d := hAll b hbm
      have h2 : d ≤ b.date := by
        have hC : (⟨nextId (ensureMidnightAutoCheckoutWithDB s uid d), uid,
            aid, d⟩ : Entry) ∈
            userEntries (createEntry s uid aid d) uid := by
          rw [hUE]
          simp
        simpa using hbub _ hC
      omega
    unfold ensureMidnightAutoCheckoutWithDB
    rw [if_neg h0]
    cases hu2 : findUser (createEntry s uid aid d) uid with
    | none => rfl
    | some u2 =>
      dsimp only
      cases hflag : u2.autoCheckoutMidnight with
      | false => rfl
      | true =>
        rw [if_neg (by simp)]
        rw [hb]
        dsimp only
        cases ht2 : findType (createEntry s uid aid d) b.typeId with
        | none => rfl
        | some t2 =>
          dsimp only
          by_cases hw : t2.work ≠ 1
          · rw [if_pos hw]
          · rw [if_neg hw]
            rw [if_pos (by rw [hbd])]

/-- C5 witness: c5_second_call_inserts_nothing on the gap fixture with the
punch at day-1 09:00. -/
theorem c5_second_call_inserts_nothing_witness :
    ensureMidnightAutoCheckoutWithDB (createEntry storeGap 1 1 118800) 1
        118800 =
      createEntry storeGap 1 1 118800 :=
  c5_second_call_inserts_nothing storeGap 1 1 118800 (by decide)

theorem bulkStep_sublist (act : ActivityType) (now : Int) (ok : Bool)
    (st : Store) (k : String) :
    st.entries.Sublist (bulkStep act now ok st k).entries := by
  unfold bulkStep
  cases findUserByStampkey st k with
  | none => exact List.Sublist.refl _
  | some u =>
    dsimp only
    cases ok with
    | false => exact List.Sublist.refl _
    | true => exact List.sublist_append_left _ _

theorem bulkFold_sublist (act : ActivityType) (now : Int) (ok : Bool) :
    ∀ (l : List String) (st : Store),
      st.entries.Sublist ((l.foldl (bulkStep act now ok) st).entries) := by
  intro l
  induction l with
  | nil => intro st; exact List.Sublist.refl _
  | cons k t ih =>
    intro st
    simp only [List.foldl_cons]
    exact (bulkStep_sublist act now ok st k).trans (ih _)

theorem ensure_sublist (s : Store) (uid : Nat) (now : Int) :
    s.entries.Sublist
      ((ensureMidnightAutoCheckoutWithDB s uid now).entries) := by
  rcases ensure_cases s uid now with hc | ⟨last, nw, _, _, _, hc⟩ <;>
      rw [hc]
  exact List.sublist_append_left _ _

/-- C9 amended: entry rows are removed only by the explicit entry deletion
and by user deletion (which removes all of the user's entries): activity,
department and user-flag management never change the entries table, the
write paths only append, deleteUser keeps exactly the other users' entries,
and deleteEntry keeps exactly the rows with a different id. -/
theorem c9_entry_deletion_frame (s : Store) (id uid aid : Nat) (d : Int)
    (st : String) (w : Int) (nm : String) (val : Bool) (actCode : String)
    (keys : List String) (now : Int) (ok : Bool) :
    (deleteActivity s id).entries = s.entries
    ∧ (deleteDepartment s id).entries = s.entries
    ∧ (createActivity s st w).entries = s.entries
    ∧ (createDepartment s nm).entries = s.entries
    ∧ (updateUserAutoCheckout s id val).entries = s.entries
    ∧ s.entries.Sublist ((createEntryWith s uid aid d ok).entries)
    ∧ s.entries.Sublist
        ((ensureMidnightAutoCheckoutWithDB s uid d).entries)
    ∧ s.entries.Sublist ((bulkClockHandler s actCode keys now ok).2.entries)
    ∧ (deleteUser s uid).entries =
        s.entries.filter (fun e => e.userId ≠ uid)
    ∧ (deleteEntry s id).entries = s.entries.filter (fun e => e.id ≠ id) := by
  refine ⟨rfl, rfl, rfl, rfl, rfl, ?_, ensure_sublist s uid d, ?_, rfl, rfl⟩
  · unfold createEntryWith
    cases ok with
    | false => exact ensure_sublist s uid d
    | true =>
      exact (ensure_sublist s uid d).trans (List.sublist_append_left _ _)
  · unfold bulkClockHandler
    cases findTypeByCode s actCode with
    | none => exact List.Sublist.refl _
    | some act => exact bulkFold_sublist act now ok keys s

end WTMS
